import Mathlib

/-!
# The application shell of `pension-frontend`

A shallow embedding of `src/components/App/index.js`: the JSX tree returned by
`App`, the routing table written inside `<Routes>`, and the way the router
imported on line 2 (`react-router-dom`) resolves a location pathname against
that table.
-/

namespace PensionFrontend

/-! ## Data model -/

/-- The components imported on lines 4-12 of `index.js`. -/
inductive Component
  | Header
  | Footer
  | PensionLoading
  | PensionWallet
  | PensionHome
  | PensionMyPension
  | PensionAbout
  | PensionRegister
  | PensionContribute
  deriving DecidableEq, Repr

/-- One `<Route path=... element={<X />} />` line. Every route element of the
source is a component instance without props or children, so the element is
recorded by its component. `caseSensitive` is the prop of the same name, which
no route of the source sets: it is `false`, the default of the router. -/
structure Route where
  path : String
  element : Component
  caseSensitive : Bool
  deriving DecidableEq, Repr

/-- JSX elements, restricted to the element kinds that occur in `index.js`. -/
inductive Element
  | div (className : String) (children : List Element)
  | main (children : List Element)
  | BrowserRouter (children : List Element)
  | Routes (routes : List Route)
  | component (c : Component) (children : List Element)
  deriving Repr

/-! ## The source: `App` -/

/-- The five `<Route>` children of `<Routes>`, lines 26-30, in source order. -/
def routingTable : List Route :=
  [ ⟨"/", Component.PensionHome, false⟩,
    ⟨"/about", Component.PensionAbout, false⟩,
    ⟨"/mypension", Component.PensionMyPension, false⟩,
    ⟨"/contribute", Component.PensionContribute, false⟩,
    ⟨"/register", Component.PensionRegister, false⟩ ]

/-- The `<Routes>` element of `App`, lines 25-31: the view slot. -/
def viewSlot : Element := Element.Routes routingTable

/-- The element returned by `function App()`, lines 16-37. -/
def App : Element :=
  Element.div "App__container"
    [ Element.BrowserRouter
        [ Element.component Component.Header
            [ Element.component Component.PensionWallet [] ],
          Element.main
            [ Element.component Component.PensionLoading [],
              viewSlot ],
          Element.component Component.Footer [] ] ]

/-! ## The router: ranking and matching of route paths

`<Routes>` hands its routes and the current location to `matchRoutes` of the
router library. The library is a dependency, not part of the repository; the
definitions below follow its version 6 sources, in the releases whose
`matchRoutes` passes the pathname through `decodePath` before matching, for
the fragment the program uses: flat routes (no children, no index route) whose
paths are static ASCII text (no `:param`, no `*`, no regular-expression
metacharacter), under the default basename `/`. The pathname is the location
pathname as the browser reports it, percent-escapes included. -/

/-- Two characters agree under the compiled pattern: identical when the route
is case sensitive, equal after upper-casing otherwise (the `i` flag of the
regular expression; a non-ASCII character never folds onto an ASCII one). -/
def charMatches (caseSensitive : Bool) (p c : Char) : Bool :=
  if caseSensitive then p == c else p.toUpper == c.toUpper

/-- The literal part of the regular expression that `compilePath` builds for a
static path: trailing slashes are removed (`replace(/\/*\*?$/, "")`) and the
leading slashes are replaced by exactly one (`replace(/^\/*/, "/")`). -/
def compilePath (path : String) : List Char :=
  '/' :: ((path.data.reverse.dropWhile (fun c => c == '/')).reverse.dropWhile
    (fun c => c == '/'))

/-- Consume the literal part of the pattern from the front of the pathname;
the result is what is left of the pathname. -/
def matchLiteral (caseSensitive : Bool) : List Char → List Char → Option (List Char)
  | [], s => some s
  | _ :: _, [] => none
  | p :: ps, c :: s =>
    if charMatches caseSensitive p c then matchLiteral caseSensitive ps s else none

/-- The function `matchPath` with `end: true`: the compiled expression is the literal part
followed by `\/*$`, so after the literal only slashes may remain. -/
def matchPath (path : String) (caseSensitive : Bool) (pathname : String) : Bool :=
  match matchLiteral caseSensitive (compilePath path) pathname.data with
  | some rest => rest.all (fun c => c == '/')
  | none => false

/-- The call `path.split("/")` on a list of characters; `acc` holds the current segment
in reverse. -/
def splitSegments : List Char → List Char → List (List Char)
  | acc, [] => [acc.reverse]
  | acc, c :: cs =>
    if c = '/' then acc.reverse :: splitSegments [] cs else splitSegments (c :: acc) cs

/-- The test `paramRe = /^:[\w-]+$/` of a dynamic segment. -/
def isParamSegment : List Char → Bool
  | ':' :: c :: cs => (c :: cs).all (fun x => x.isAlphanum || x == '_' || x == '-')
  | _ => false

/-- The test `isSplat`: the segment is a lone star. -/
def isSplat (segment : List Char) : Bool := segment == ['*']

/-- The function `computeScore(path, index)` for a route that is not an index route:
the number of segments (minus 2 when one is a splat), plus 3 for each dynamic
segment, 1 for each empty segment and 10 for each static segment. -/
def computeScore (path : String) : Int :=
  let segments := splitSegments [] path.data
  let initialScore : Int :=
    if segments.any isSplat then (segments.length : Int) - 2 else segments.length
  (segments.filter (fun s => !isSplat s)).foldl
    (fun score segment =>
      score + (if isParamSegment segment then 3 else if segment = [] then 1 else 10))
    initialScore

/-- The function `rankRouteBranches`: sort by descending score; siblings of equal score
keep their source order (the sort is stable). -/
def rankRouteBranches (routes : List Route) : List Route :=
  routes.insertionSort (fun a b => computeScore b.path ≤ computeScore a.path)

/-- What an escaped string is read as: a code unit taken as it stands, or the
octet written by a `%XX` escape. -/
inductive EscapeToken
  | unit (c : Char)
  | octet (b : Nat)
  deriving DecidableEq, Repr

/-- The value of a hexadecimal digit, in either case. -/
def hexValue (c : Char) : Option Nat :=
  if '0' ≤ c ∧ c ≤ '9' then some (c.toNat - 48)
  else if 'a' ≤ c ∧ c ≤ 'f' then some (c.toNat - 87)
  else if 'A' ≤ c ∧ c ≤ 'F' then some (c.toNat - 55)
  else none

/-- Read the `%XX` escapes of a string from left to right; a `%` that is not
followed by two hexadecimal digits is an error (`URIError`). -/
def readEscapes : List Char → Option (List EscapeToken)
  | [] => some []
  | c :: rest =>
    if c = '%' then
      match rest with
      | h₁ :: h₂ :: rest₂ =>
        match hexValue h₁, hexValue h₂, readEscapes rest₂ with
        | some a, some b, some ts => some (EscapeToken.octet (16 * a + b) :: ts)
        | _, _, _ => none
      | _ => none
    else
      (readEscapes rest).map (fun ts => EscapeToken.unit c :: ts)

/-- A continuation octet of UTF-8, `10xxxxxx`. -/
def isContinuation (b : Nat) : Bool := 0x80 ≤ b && b < 0xC0

/-- Turn the octets into code points: an octet below `0x80` is an ASCII
character; a lead octet announces a sequence of two, three or four octets,
all of which must be escapes, and which must be a valid UTF-8 encoding (no
overlong form, no surrogate, nothing above `0x10FFFF`); anything else is an
error (`URIError`). -/
def decodeOctets : List EscapeToken → Option (List Char)
  | [] => some []
  | EscapeToken.unit c :: rest => (decodeOctets rest).map (fun r => c :: r)
  | EscapeToken.octet b :: rest =>
    if b < 0x80 then (decodeOctets rest).map (fun r => Char.ofNat b :: r)
    else if b < 0xC0 then none
    else if b < 0xE0 then
      match rest with
      | EscapeToken.octet b₁ :: rest₁ =>
        let v := (b - 0xC0) * 64 + (b₁ - 0x80)
        if isContinuation b₁ && 0x80 ≤ v then
          (decodeOctets rest₁).map (fun r => Char.ofNat v :: r)
        else none
      | _ => none
    else if b < 0xF0 then
      match rest with
      | EscapeToken.octet b₁ :: EscapeToken.octet b₂ :: rest₂ =>
        let v := (b - 0xE0) * 4096 + (b₁ - 0x80) * 64 + (b₂ - 0x80)
        if isContinuation b₁ && isContinuation b₂ && 0x800 ≤ v
            && !(0xD800 ≤ v && v ≤ 0xDFFF) then
          (decodeOctets rest₂).map (fun r => Char.ofNat v :: r)
        else none
      | _ => none
    else if b < 0xF8 then
      match rest with
      | EscapeToken.octet b₁ :: EscapeToken.octet b₂ :: EscapeToken.octet b₃ :: rest₃ =>
        let v := (b - 0xF0) * 262144 + (b₁ - 0x80) * 4096 + (b₂ - 0x80) * 64 + (b₃ - 0x80)
        if isContinuation b₁ && isContinuation b₂ && isContinuation b₃ && 0x10000 ≤ v
            && v ≤ 0x10FFFF then
          (decodeOctets rest₃).map (fun r => Char.ofNat v :: r)
        else none
      | _ => none
    else none

/-- The function `decodeURIComponent` of the language; `none` stands for a
thrown `URIError`. -/
def decodeURIComponent (s : List Char) : Option (List Char) :=
  (readEscapes s).bind decodeOctets

/-- Decode every segment; one failing segment fails the whole. -/
def decodeSegments : List (List Char) → Option (List (List Char))
  | [] => some []
  | s :: ss =>
    match decodeURIComponent s, decodeSegments ss with
    | some d, some ds => some (d :: ds)
    | _, _ => none

/-- The replacement `.replace(/\//g, "%2F")` on a decoded segment. -/
def escapeSlashes (s : List Char) : List Char :=
  s.flatMap (fun c => if c = '/' then ['%', '2', 'F'] else [c])

/-- The function `decodePath`: split at the slashes, decode each segment with
`decodeURIComponent`, write a decoded slash back as `%2F`, and join with
slashes; when a segment cannot be decoded the value is returned unchanged
(the `catch` branch). -/
def decodePath (value : String) : String :=
  match decodeSegments (splitSegments [] value.data) with
  | some ds => String.mk (List.intercalate ['/'] (ds.map escapeSlashes))
  | none => value

/-- The function `matchRoutes(routes, location)`: the best ranked route whose
path matches the decoded pathname, if any. An empty pathname stands for `/`
(`location.pathname || "/"`), and the pathname is decoded before it is matched
(`decodePath(pathname)`). -/
def matchRoutes (routes : List Route) (pathname : String) : Option Route :=
  let pathname := if pathname = "" then "/" else pathname
  let decoded := decodePath pathname
  (rankRouteBranches routes).find? (fun r => matchPath r.path r.caseSensitive decoded)

/-! ## Rendering -/

mutual
/-- The output of rendering an element at a location: `<Routes>` is replaced by
the element of the matched route, or by nothing when no route matches; every
other element keeps its place and renders its children. Imported components
are left unexpanded, as with test doubles. -/
def render (pathname : String) : Element → List Element
  | Element.div cn cs => [Element.div cn (renderList pathname cs)]
  | Element.main cs => [Element.main (renderList pathname cs)]
  | Element.BrowserRouter cs => [Element.BrowserRouter (renderList pathname cs)]
  | Element.Routes rs =>
    match matchRoutes rs pathname with
    | some r => [Element.component r.element []]
    | none => []
  | Element.component c cs => [Element.component c (renderList pathname cs)]
/-- Rendering of a list of sibling elements, in order. -/
def renderList (pathname : String) : List Element → List Element
  | [] => []
  | e :: es => render pathname e ++ renderList pathname es
end

mutual
/-- The components of a tree, in document order (parent before children). -/
def components : Element → List Component
  | Element.div _ cs => componentsList cs
  | Element.main cs => componentsList cs
  | Element.BrowserRouter cs => componentsList cs
  | Element.Routes _ => []
  | Element.component c cs => c :: componentsList cs
/-- The components of a list of sibling trees, in document order. -/
def componentsList : List Element → List Component
  | [] => []
  | e :: es => components e ++ componentsList es
end


mutual
/-- The regions of a tree, in document order: layout wrappers (`div`, `main`,
the router) are looked through, a component or a `<Routes>` is a region. -/
def regions : Element → List Element
  | Element.div _ cs => regionsList cs
  | Element.main cs => regionsList cs
  | Element.BrowserRouter cs => regionsList cs
  | Element.Routes rs => [Element.Routes rs]
  | Element.component c cs => [Element.component c cs]
/-- The regions of a list of sibling trees, in document order. -/
def regionsList : List Element → List Element
  | [] => []
  | e :: es => regions e ++ regionsList es
end

/-! ## Navigation state -/

/-- The history stack the router listens to: the current pathname and the
pathnames visited before it, most recent first. -/
structure History where
  current : String
  past : List String
  deriving DecidableEq, Repr

/-- A navigation to `target`: the current entry joins the visited ones. -/
def History.push (h : History) (target : String) : History :=
  ⟨target, h.current :: h.past⟩

/-- What the view slot shows for a history: the router passes the current
location, and nothing else, to `<Routes>`. -/
def mountedViews (h : History) : List Component :=
  componentsList (render h.current viewSlot)

/-! ## Reading a pathname up to letter case and trailing slashes -/

/-- The pathname is `path`, up to the case of ASCII letters, followed by zero
or more slashes. -/
def agrees (path pathname : String) : Bool :=
  (pathname.data.take path.data.length).map Char.toUpper == path.data.map Char.toUpper
    && (pathname.data.drop path.data.length).all (fun c => c == '/')


/-! ## Patterns that can match a common pathname -/

/-- Two patterns can match one pathname only when they agree character by
character and the longer one continues with characters that match a slash. -/
def overlaps (cs : Bool) : List Char → List Char → Bool
  | [], q => q.all (fun x => charMatches cs x '/')
  | p :: ps, [] => (p :: ps).all (fun x => charMatches cs x '/')
  | p :: ps, q :: qs => charMatches cs p q && overlaps cs ps qs

/-! ## Lemmas on the matcher -/

theorem charMatches_trans (cs : Bool) (p q c : Char)
    (hp : charMatches cs p c = true) (hq : charMatches cs q c = true) :
    charMatches cs p q = true := by
  cases cs <;> simp_all [charMatches]

theorem matchLiteral_slashes (cs : Bool) (P s r : List Char)
    (hs : s.all (fun c => c == '/') = true) (h : matchLiteral cs P s = some r) :
    P.all (fun x => charMatches cs x '/') = true := by
  induction P generalizing s with
  | nil => simp
  | cons p ps ih =>
    cases s with
    | nil => simp [matchLiteral] at h
    | cons c s =>
      simp only [List.all_cons, Bool.and_eq_true, beq_iff_eq] at hs
      obtain ⟨hc, hs⟩ := hs
      subst hc
      simp only [matchLiteral] at h
      split at h
      · rename_i hpc
        simp only [List.all_cons, Bool.and_eq_true]
        exact ⟨hpc, ih s hs h⟩
      · simp at h

theorem matchLiteral_overlaps (cs : Bool) (P Q s r₁ r₂ : List Char)
    (h₁ : matchLiteral cs P s = some r₁) (hr₁ : r₁.all (fun c => c == '/') = true)
    (h₂ : matchLiteral cs Q s = some r₂) (hr₂ : r₂.all (fun c => c == '/') = true) :
    overlaps cs P Q = true := by
  induction P generalizing Q s with
  | nil =>
    simp only [matchLiteral, Option.some.injEq] at h₁
    subst h₁
    simpa [overlaps] using matchLiteral_slashes cs Q s r₂ hr₁ h₂
  | cons p ps ih =>
    cases s with
    | nil => simp [matchLiteral] at h₁
    | cons c s =>
      simp only [matchLiteral] at h₁
      split at h₁
      · rename_i hpc
        cases Q with
        | nil =>
          simp only [matchLiteral, Option.some.injEq] at h₂
          subst h₂
          simp only [List.all_cons, Bool.and_eq_true, beq_iff_eq] at hr₂
          obtain ⟨hc, hs⟩ := hr₂
          subst hc
          simp only [overlaps, List.all_cons, Bool.and_eq_true]
          exact ⟨hpc, matchLiteral_slashes cs ps s r₁ hs h₁⟩
        | cons q qs =>
          simp only [matchLiteral] at h₂
          split at h₂
          · rename_i hqc
            simp only [overlaps, Bool.and_eq_true]
            exact ⟨charMatches_trans cs p q c hpc hqc, ih qs s h₁ h₂⟩
          · simp at h₂
      · simp at h₁

theorem matchPath_overlaps (p q : String) (cs : Bool) (pathname : String)
    (hp : matchPath p cs pathname = true) (hq : matchPath q cs pathname = true) :
    overlaps cs (compilePath p) (compilePath q) = true := by
  unfold matchPath at hp hq
  split at hp
  · rename_i r₁ h₁
    split at hq
    · rename_i r₂ h₂
      exact matchLiteral_overlaps cs _ _ _ r₁ r₂ h₁ hp h₂ hq
    · simp at hq
  · simp at hp

/-- No two routes of the table can match the same pathname. -/
theorem routingTable_exclusive (pathname : String) (a b : Route)
    (ha : a ∈ routingTable) (hb : b ∈ routingTable)
    (hma : matchPath a.path a.caseSensitive pathname = true)
    (hmb : matchPath b.path b.caseSensitive pathname = true) : a = b := by
  have key : ∀ x ∈ routingTable, ∀ y ∈ routingTable,
      overlaps false (compilePath x.path) (compilePath y.path) = true → x = y := by
    decide
  have hcs : ∀ x ∈ routingTable, x.caseSensitive = false := by decide
  rw [hcs a ha] at hma
  rw [hcs b hb] at hmb
  exact key a ha b hb (matchPath_overlaps a.path b.path false pathname hma hmb)


/-! ## Lemmas on first-match search -/

/-- When at most one element of a list satisfies a test, the first hit of a
search does not depend on how the list is ordered. -/
theorem find?_perm_of_unique {α : Type} (f : α → Bool) (l₁ l₂ : List α)
    (hperm : l₁.Perm l₂)
    (huniq : ∀ a ∈ l₂, ∀ b ∈ l₂, f a = true → f b = true → a = b) :
    l₁.find? f = l₂.find? f := by
  cases h₂ : l₂.find? f with
  | none =>
    rw [List.find?_eq_none] at h₂ ⊢
    intro x hx
    exact h₂ x (hperm.subset hx)
  | some a =>
    have ha : f a = true := List.find?_some h₂
    have hmem : a ∈ l₂ := List.mem_of_find?_eq_some h₂
    cases h₁ : l₁.find? f with
    | none =>
      rw [List.find?_eq_none] at h₁
      exact absurd ha (h₁ a (hperm.symm.subset hmem))
    | some b =>
      have hb : f b = true := List.find?_some h₁
      have hbmem : b ∈ l₂ := hperm.subset (List.mem_of_find?_eq_some h₁)
      rw [huniq b hbmem a hmem hb ha]

/-- A duplicate-free list in which at most one element satisfies a test has at
most one element left after filtering by it. -/
theorem filter_length_le_one {α : Type} (f : α → Bool) (l : List α) (hnd : l.Nodup)
    (huniq : ∀ a ∈ l, ∀ b ∈ l, f a = true → f b = true → a = b) :
    (l.filter f).length ≤ 1 := by
  have hnd2 : (l.filter f).Nodup := hnd.filter _
  match hfl : l.filter f with
  | [] => simp
  | [_] => simp
  | a :: b :: t =>
    exfalso
    rw [hfl] at hnd2
    have ha : a ∈ l.filter f := by rw [hfl]; simp
    have hb : b ∈ l.filter f := by rw [hfl]; simp
    rw [List.mem_filter] at ha hb
    have hab : a = b := huniq a ha.1 b hb.1 ha.2 hb.2
    simp [hab] at hnd2

/-- The ranked list is a reordering of the routes. -/
theorem rankRouteBranches_perm (routes : List Route) :
    (rankRouteBranches routes).Perm routes :=
  List.perm_insertionSort _ routes

/-- The function `matchRoutes` on any reordering of the table is a plain search of the table
in source order. -/
theorem matchRoutes_of_perm (l : List Route) (hperm : l.Perm routingTable)
    (pathname : String) :
    matchRoutes l pathname =
      routingTable.find? (fun r =>
        matchPath r.path r.caseSensitive
          (decodePath (if pathname = "" then "/" else pathname))) := by
  unfold matchRoutes
  exact find?_perm_of_unique _ _ _ ((rankRouteBranches_perm l).trans hperm)
    (fun a ha b hb hma hmb => routingTable_exclusive _ a b ha hb hma hmb)

/-! ## Lemmas on agreement up to case and trailing slashes -/

theorem matchLiteral_eq_agrees (P s : List Char) :
    (match matchLiteral false P s with
      | some rest => rest.all (fun c => c == '/')
      | none => false) =
    ((s.take P.length).map Char.toUpper == P.map Char.toUpper
      && (s.drop P.length).all (fun c => c == '/')) := by
  induction P generalizing s with
  | nil => simp [matchLiteral]
  | cons p ps ih =>
    cases s with
    | nil => simp [matchLiteral]
    | cons c s =>
      simp only [matchLiteral, charMatches]
      by_cases hpc : p.toUpper = c.toUpper
      · simp [hpc, ih s]
      · have hcp : ¬ c.toUpper = p.toUpper := fun h => hpc h.symm
        simp [hpc, hcp]

/-- On the routes of the table, `matchPath` decides agreement with the route
path up to letter case and trailing slashes. -/
theorem matchPath_eq_agrees (r : Route) (hr : r ∈ routingTable) (pathname : String) :
    matchPath r.path r.caseSensitive pathname = agrees r.path pathname := by
  have hcs : ∀ x ∈ routingTable, x.caseSensitive = false := by decide
  have hcp : ∀ x ∈ routingTable, compilePath x.path = x.path.data := by decide
  unfold matchPath agrees
  rw [hcs r hr, hcp r hr]
  exact matchLiteral_eq_agrees _ _


/-! ## Lemmas on decoding -/

theorem readEscapes_of_no_percent (l : List Char) (h : '%' ∉ l) :
    readEscapes l = some (l.map EscapeToken.unit) := by
  induction l with
  | nil => rfl
  | cons c cs ih =>
    rw [List.mem_cons, not_or] at h
    have hc : ¬ c = '%' := fun e => h.1 e.symm
    have hstep : readEscapes (c :: cs)
        = (readEscapes cs).map (fun ts => EscapeToken.unit c :: ts) := by
      conv_lhs => unfold readEscapes
      rw [if_neg hc]
    rw [hstep, ih h.2]
    rfl

theorem decodeOctets_units (l : List Char) :
    decodeOctets (l.map EscapeToken.unit) = some l := by
  induction l with
  | nil => rfl
  | cons c cs ih =>
    have hstep : decodeOctets (EscapeToken.unit c :: cs.map EscapeToken.unit)
        = (decodeOctets (cs.map EscapeToken.unit)).map (fun r => c :: r) := rfl
    rw [List.map_cons, hstep, ih]
    rfl

theorem decodeURIComponent_of_no_percent (l : List Char) (h : '%' ∉ l) :
    decodeURIComponent l = some l := by
  simp [decodeURIComponent, readEscapes_of_no_percent l h, decodeOctets_units]

theorem decodeSegments_of_no_percent (ss : List (List Char))
    (h : ∀ seg ∈ ss, '%' ∉ seg) : decodeSegments ss = some ss := by
  induction ss with
  | nil => rfl
  | cons seg ss ih =>
    have h₁ : '%' ∉ seg := h seg (List.mem_cons_self _ _)
    have h₂ : ∀ t ∈ ss, '%' ∉ t := fun t ht => h t (List.mem_cons_of_mem _ ht)
    simp [decodeSegments, decodeURIComponent_of_no_percent seg h₁, ih h₂]

theorem escapeSlashes_of_no_slash (l : List Char) (h : '/' ∉ l) : escapeSlashes l = l := by
  induction l with
  | nil => rfl
  | cons c cs ih =>
    rw [List.mem_cons, not_or] at h
    have hc : ¬ c = '/' := fun e => h.1 e.symm
    have ih' := ih h.2
    unfold escapeSlashes at ih' ⊢
    simp [List.flatMap_cons, hc, ih']

theorem splitSegments_ne_nil (acc l : List Char) : splitSegments acc l ≠ [] := by
  induction l generalizing acc with
  | nil => simp [splitSegments]
  | cons c cs ih =>
    unfold splitSegments
    split
    · simp
    · exact ih _

/-- Every character of a segment comes from the accumulator or from the text,
and a slash can only come from the accumulator. -/
theorem mem_splitSegments (acc l : List Char) (seg : List Char)
    (hseg : seg ∈ splitSegments acc l) (c : Char) (hc : c ∈ seg) :
    (c ∈ acc ∨ c ∈ l) ∧ (c = '/' → c ∈ acc) := by
  induction l generalizing acc with
  | nil =>
    simp only [splitSegments, List.mem_singleton] at hseg
    subst hseg
    rw [List.mem_reverse] at hc
    exact ⟨Or.inl hc, fun _ => hc⟩
  | cons d ds ih =>
    unfold splitSegments at hseg
    split at hseg
    · rw [List.mem_cons] at hseg
      rcases hseg with hseg | hseg
      · subst hseg
        rw [List.mem_reverse] at hc
        exact ⟨Or.inl hc, fun _ => hc⟩
      · have := ih [] hseg
        simp only [List.not_mem_nil, false_or] at this
        exact ⟨Or.inr (List.mem_cons_of_mem _ this.1), fun e => (this.2 e).elim⟩
    · rename_i hd
      have := ih (d :: acc) hseg
      rw [List.mem_cons] at this
      refine ⟨?_, ?_⟩
      · rcases this.1 with (h | h) | h
        · exact Or.inr (h ▸ List.mem_cons_self _ _)
        · exact Or.inl h
        · exact Or.inr (List.mem_cons_of_mem _ h)
      · intro e
        rcases this.2 e with h | h
        · exact absurd (h.symm.trans e) hd
        · exact h

theorem intercalate_cons_of_ne_nil (sep a : List Char) (t : List (List Char)) (ht : t ≠ []) :
    List.intercalate sep (a :: t) = a ++ sep ++ List.intercalate sep t := by
  cases t with
  | nil => exact absurd rfl ht
  | cons b t => simp [List.intercalate, List.intersperse]

/-- Joining the segments with slashes gives the text back. -/
theorem intercalate_splitSegments (acc l : List Char) :
    List.intercalate ['/'] (splitSegments acc l) = acc.reverse ++ l := by
  induction l generalizing acc with
  | nil => simp [splitSegments, List.intercalate, List.intersperse]
  | cons c cs ih =>
    unfold splitSegments
    split
    · rename_i hc
      rw [intercalate_cons_of_ne_nil _ _ _ (splitSegments_ne_nil [] cs), ih []]
      simp [hc]
    · rw [ih (c :: acc)]
      simp

/-- A pathname without `%` is left as it is by `decodePath`. -/
theorem decodePath_of_no_percent (value : String) (h : '%' ∉ value.data) :
    decodePath value = value := by
  have hsegs : ∀ seg ∈ splitSegments [] value.data, '%' ∉ seg := by
    intro seg hseg hmem
    have := (mem_splitSegments [] value.data seg hseg '%' hmem).1
    simp only [List.not_mem_nil, false_or] at this
    exact h this
  have hslash : ∀ seg ∈ splitSegments [] value.data, escapeSlashes seg = seg := by
    intro seg hseg
    apply escapeSlashes_of_no_slash
    intro hmem
    have := (mem_splitSegments [] value.data seg hseg '/' hmem).2 rfl
    simp at this
  unfold decodePath
  rw [decodeSegments_of_no_percent _ hsegs]
  have hmap : (splitSegments [] value.data).map escapeSlashes = splitSegments [] value.data := by
    conv_rhs => rw [← List.map_id (splitSegments [] value.data)]
    exact List.map_congr_left (fun seg hseg => hslash seg hseg)
  simp only [hmap, intercalate_splitSegments, List.reverse_nil, List.nil_append]

/-- A pathname that agrees with a route path of the table holds no `%`. -/
theorem no_percent_of_agrees (r : Route) (hr : r ∈ routingTable) (pathname : String)
    (h : agrees r.path pathname = true) : '%' ∉ pathname.data := by
  have htable : ∀ x ∈ routingTable, '%' ∉ x.path.data.map Char.toUpper := by decide
  unfold agrees at h
  rw [Bool.and_eq_true, beq_iff_eq, List.all_eq_true] at h
  obtain ⟨htake, hdrop⟩ := h
  intro hmem
  rw [← List.take_append_drop r.path.data.length pathname.data, List.mem_append] at hmem
  rcases hmem with hmem | hmem
  · apply htable r hr
    rw [← htake]
    exact List.mem_map.mpr ⟨'%', hmem, rfl⟩
  · have := hdrop '%' hmem
    simp at this

/-! ## Lemmas on rendering -/

/-- The output of `App` at any pathname: only the content of the view slot
depends on the pathname. -/
theorem render_App (pathname : String) :
    render pathname App =
      [ Element.div "App__container"
          [ Element.BrowserRouter
              [ Element.component Component.Header
                  [ Element.component Component.PensionWallet [] ],
                Element.main
                  (Element.component Component.PensionLoading [] :: render pathname viewSlot),
                Element.component Component.Footer [] ] ] ] := by
  simp [App, render, renderList]

theorem render_viewSlot_eq_nil (pathname : String) :
    render pathname viewSlot = [] ↔ matchRoutes routingTable pathname = none := by
  unfold viewSlot
  rw [render]
  split <;> simp_all

theorem render_Routes_length (pathname : String) (l : List Route) :
    (render pathname (Element.Routes l)).length ≤ 1 := by
  rw [render]
  split <;> simp

/-- The view slot is empty exactly when the decoded pathname agrees with none
of the five route paths up to letter case and trailing slashes. -/
theorem render_viewSlot_eq_nil_iff_agrees (pathname : String) :
    render pathname viewSlot = [] ↔
      ["/", "/about", "/mypension", "/contribute", "/register"].any
        (fun p => agrees p (decodePath (if pathname = "" then "/" else pathname))) = false := by
  rw [render_viewSlot_eq_nil, matchRoutes_of_perm routingTable (List.Perm.refl _) pathname,
    List.find?_eq_none]
  have hpaths : ["/", "/about", "/mypension", "/contribute", "/register"]
      = routingTable.map Route.path := rfl
  rw [hpaths, List.any_eq_false]
  constructor
  · intro h p hp
    rw [List.mem_map] at hp
    obtain ⟨r, hr, rfl⟩ := hp
    have := h r hr
    rw [matchPath_eq_agrees r hr] at this
    simpa using this
  · intro h r hr
    rw [matchPath_eq_agrees r hr]
    exact h r.path (List.mem_map_of_mem _ hr)

/-! ## The claims -/

/-- C1: at each of the five defined paths the view slot of `App` renders the
view the routing table assigns to that path and nothing else, and the whole
output of `App` holds that view as its only page view. -/
theorem C1_defined_path_renders_assigned_view :
    render "/" viewSlot = [Element.component Component.PensionHome []]
    ∧ render "/about" viewSlot = [Element.component Component.PensionAbout []]
    ∧ render "/mypension" viewSlot = [Element.component Component.PensionMyPension []]
    ∧ render "/contribute" viewSlot = [Element.component Component.PensionContribute []]
    ∧ render "/register" viewSlot = [Element.component Component.PensionRegister []]
    ∧ routingTable.map (fun r => render r.path viewSlot)
        = routingTable.map (fun r => [Element.component r.element []])
    ∧ componentsList (render "/" App)
        = [Component.Header, Component.PensionWallet, Component.PensionLoading,
            Component.PensionHome, Component.Footer]
    ∧ componentsList (render "/about" App)
        = [Component.Header, Component.PensionWallet, Component.PensionLoading,
            Component.PensionAbout, Component.Footer]
    ∧ componentsList (render "/mypension" App)
        = [Component.Header, Component.PensionWallet, Component.PensionLoading,
            Component.PensionMyPension, Component.Footer]
    ∧ componentsList (render "/contribute" App)
        = [Component.Header, Component.PensionWallet, Component.PensionLoading,
            Component.PensionContribute, Component.Footer]
    ∧ componentsList (render "/register" App)
        = [Component.Header, Component.PensionWallet, Component.PensionLoading,
            Component.PensionRegister, Component.Footer] :=
  ⟨rfl, rfl, rfl, rfl, rfl, rfl, by decide, by decide, by decide, by decide, by decide⟩

/-- C2, as stated, fails: `/about/`, `/ABOUT` and `/%61bout` are none of the
five strings, yet at each of them the view slot renders `PensionAbout`, and at
`//` it renders `PensionHome`. -/
theorem C2_counterexample_inexact_matching :
    "/about/" ∉ ["/", "/about", "/mypension", "/contribute", "/register"]
    ∧ render "/about/" viewSlot = [Element.component Component.PensionAbout []]
    ∧ "/ABOUT" ∉ ["/", "/about", "/mypension", "/contribute", "/register"]
    ∧ render "/ABOUT" viewSlot = [Element.component Component.PensionAbout []]
    ∧ "/%61bout" ∉ ["/", "/about", "/mypension", "/contribute", "/register"]
    ∧ render "/%61bout" viewSlot = [Element.component Component.PensionAbout []]
    ∧ "//" ∉ ["/", "/about", "/mypension", "/contribute", "/register"]
    ∧ render "//" viewSlot = [Element.component Component.PensionHome []]
    ∧ ¬ (∀ pathname : String,
          pathname ∉ ["/", "/about", "/mypension", "/contribute", "/register"] →
          render pathname viewSlot = []) := by
  refine ⟨by decide, rfl, by decide, rfl, by decide, rfl, by decide, rfl, ?_⟩
  intro h
  have h1 : render "/about/" viewSlot = [] := h "/about/" (by decide)
  have h2 : render "/about/" viewSlot = [Element.component Component.PensionAbout []] := rfl
  rw [h2] at h1
  exact List.cons_ne_nil _ _ h1

/-- C2, amended: there is no fallback, and matching is applied to the decoded
pathname and ignores the case of ASCII letters and trailing slashes. When the
pathname as `decodePath` returns it (the empty pathname counting as `/`) is
none of the five strings `/`, `/about`, `/mypension`, `/contribute`,
`/register` up to letter case and followed by zero or more slashes, the view
slot is empty; no route matches the pathname taken without decoding either. -/
theorem C2_slot_empty_when_no_path_agrees (pathname : String)
    (hnone : ["/", "/about", "/mypension", "/contribute", "/register"].any
      (fun p => agrees p (decodePath (if pathname = "" then "/" else pathname))) = false) :
    render pathname viewSlot = []
    ∧ routingTable.find? (fun r =>
        matchPath r.path r.caseSensitive (if pathname = "" then "/" else pathname)) = none := by
  refine ⟨(render_viewSlot_eq_nil_iff_agrees pathname).mpr hnone, ?_⟩
  rw [List.find?_eq_none]
  intro r hr hmatch
  rw [matchPath_eq_agrees r hr] at hmatch
  have hid := decodePath_of_no_percent _ (no_percent_of_agrees r hr _ hmatch)
  rw [List.any_eq_false] at hnone
  have hmem : r.path ∈ ["/", "/about", "/mypension", "/contribute", "/register"] :=
    List.mem_map_of_mem Route.path hr
  exact hnone r.path hmem (by rw [hid]; exact hmatch)

/-- C2 at a concrete input: `/unknown` agrees with none of the five paths and
leaves the view slot empty. -/
theorem C2_slot_empty_when_no_path_agrees_witness :
    ["/", "/about", "/mypension", "/contribute", "/register"].any
      (fun p => agrees p (decodePath (if "/unknown" = "" then "/" else "/unknown"))) = false
    ∧ render "/unknown" viewSlot = [] :=
  ⟨by decide, (C2_slot_empty_when_no_path_agrees "/unknown" (by decide)).1⟩

/-- C3: the five routes are mutually exclusive. For every pathname and every
order `l` in which the five routes may be listed, at most one route matches,
the slot holds at most one view, the route chosen is the first match in the
listed order, and both the chosen route and the rendered slot are the ones
obtained from the order of the source. -/
theorem C3_routes_mutually_exclusive (pathname : String) (l : List Route)
    (hperm : l.Perm routingTable) :
    (l.filter (fun r => matchPath r.path r.caseSensitive pathname)).length ≤ 1
    ∧ (render pathname (Element.Routes l)).length ≤ 1
    ∧ matchRoutes l pathname
        = l.find? (fun r =>
            matchPath r.path r.caseSensitive
              (decodePath (if pathname = "" then "/" else pathname)))
    ∧ matchRoutes l pathname = matchRoutes routingTable pathname
    ∧ render pathname (Element.Routes l) = render pathname viewSlot := by
  have hnd : routingTable.Nodup := by decide
  have hfilter :
      (routingTable.filter (fun r => matchPath r.path r.caseSensitive pathname)).length ≤ 1 :=
    filter_length_le_one _ routingTable hnd
      (fun a ha b hb hma hmb => routingTable_exclusive pathname a b ha hb hma hmb)
  have hmatch : matchRoutes l pathname = matchRoutes routingTable pathname := by
    rw [matchRoutes_of_perm l hperm, matchRoutes_of_perm routingTable (List.Perm.refl _)]
  refine ⟨?_, render_Routes_length pathname l, ?_, hmatch, ?_⟩
  · rw [(hperm.filter _).length_eq]
    exact hfilter
  · rw [matchRoutes_of_perm l hperm]
    exact (find?_perm_of_unique _ _ _ hperm
      (fun a ha b hb hma hmb => routingTable_exclusive _ a b ha hb hma hmb)).symm
  · unfold viewSlot
    rw [render, render, hmatch]

/-- C3 at a concrete input: the routes listed in reverse order, at `/about/`. -/
theorem C3_routes_mutually_exclusive_witness :
    routingTable.reverse.Perm routingTable
    ∧ (routingTable.reverse.filter
        (fun r => matchPath r.path r.caseSensitive "/about/")).length ≤ 1
    ∧ matchRoutes routingTable.reverse "/about/" = matchRoutes routingTable "/about/"
    ∧ render "/about/" (Element.Routes routingTable.reverse) = render "/about/" viewSlot :=
  ⟨List.reverse_perm _,
    (C3_routes_mutually_exclusive "/about/" routingTable.reverse (List.reverse_perm _)).1,
    (C3_routes_mutually_exclusive "/about/" routingTable.reverse (List.reverse_perm _)).2.2.2.1,
    (C3_routes_mutually_exclusive "/about/" routingTable.reverse (List.reverse_perm _)).2.2.2.2⟩

/-- C4: at every pathname, defined or not, the output of `App` contains the
Header, the PensionWallet widget, the PensionLoading indicator and the Footer;
only the content of the view slot varies with the pathname. -/
theorem C4_shell_present_at_every_path (pathname : String) :
    Component.Header ∈ componentsList (render pathname App)
    ∧ Component.PensionWallet ∈ componentsList (render pathname App)
    ∧ Component.PensionLoading ∈ componentsList (render pathname App)
    ∧ Component.Footer ∈ componentsList (render pathname App)
    ∧ componentsList (render pathname App)
        = [Component.Header, Component.PensionWallet, Component.PensionLoading]
          ++ componentsList (render pathname viewSlot) ++ [Component.Footer]
    ∧ render pathname App =
      [ Element.div "App__container"
          [ Element.BrowserRouter
              [ Element.component Component.Header
                  [ Element.component Component.PensionWallet [] ],
                Element.main
                  (Element.component Component.PensionLoading [] :: render pathname viewSlot),
                Element.component Component.Footer [] ] ] ] := by
  have hc : componentsList (render pathname App)
      = [Component.Header, Component.PensionWallet, Component.PensionLoading]
          ++ componentsList (render pathname viewSlot) ++ [Component.Footer] := by
    rw [render_App]
    simp [componentsList, components]
  refine ⟨?_, ?_, ?_, ?_, hc, render_App pathname⟩ <;> rw [hc] <;> simp

/-- C5: when the current path is the defined path `p` and a navigation leads
to a different defined path `q`, the view slot showed the view of `p` before,
shows exactly the view of `q` after, no longer shows the view of `p`, and
shows the same as any history whose current path is `q`, whatever was visited
before. -/
theorem C5_navigation_replaces_view (h : History) (p q : Route)
    (hp : p ∈ routingTable) (hq : q ∈ routingTable) (hne : p.path ≠ q.path)
    (hcur : h.current = p.path) :
    mountedViews h = [p.element]
    ∧ mountedViews (h.push q.path) = [q.element]
    ∧ p.element ∉ mountedViews (h.push q.path)
    ∧ ∀ h₂ : History, h₂.current = q.path → mountedViews h₂ = mountedViews (h.push q.path) := by
  have hview : ∀ r ∈ routingTable, componentsList (render r.path viewSlot) = [r.element] := by
    decide
  have hinj : ∀ a ∈ routingTable, ∀ b ∈ routingTable, a.element = b.element → a.path = b.path := by
    decide
  refine ⟨?_, ?_, ?_, ?_⟩
  · unfold mountedViews
    rw [hcur]
    exact hview p hp
  · unfold mountedViews History.push
    exact hview q hq
  · unfold mountedViews History.push
    rw [hview q hq]
    intro hmem
    rw [List.mem_singleton] at hmem
    exact hne (hinj p hp q hq hmem)
  · intro h₂ h₂cur
    unfold mountedViews History.push
    rw [h₂cur]

/-- C5 at a concrete input: from `/` (after `/register`) to `/about`. -/
theorem C5_navigation_replaces_view_witness :
    mountedViews (History.mk "/" ["/register"]) = [Component.PensionHome]
    ∧ mountedViews ((History.mk "/" ["/register"]).push "/about") = [Component.PensionAbout]
    ∧ Component.PensionHome ∉ mountedViews ((History.mk "/" ["/register"]).push "/about") :=
  have w := C5_navigation_replaces_view (History.mk "/" ["/register"])
    ⟨"/", Component.PensionHome, false⟩ ⟨"/about", Component.PensionAbout, false⟩
    (by decide) (by decide) (by decide) rfl
  ⟨w.1, w.2.1, w.2.2.1⟩

/-- C6: the tree returned by `App` has four regions in this order: a Header
whose nested content is exactly the PensionWallet widget, the PensionLoading
indicator, the view slot, and a Footer without nested content; the indicator
and the slot are, in this order, the content of `main`, which sits between the
Header and the Footer inside the one router. -/
theorem C6_four_regions_in_order :
    regions App =
      [ Element.component Component.Header [Element.component Component.PensionWallet []],
        Element.component Component.PensionLoading [],
        Element.Routes routingTable,
        Element.component Component.Footer [] ]
    ∧ App =
      Element.div "App__container"
        [ Element.BrowserRouter
            [ Element.component Component.Header
                [Element.component Component.PensionWallet []],
              Element.main
                [Element.component Component.PensionLoading [], Element.Routes routingTable],
              Element.component Component.Footer [] ] ] :=
  ⟨rfl, rfl⟩

/-- C8: the routing table is a bijection between its five paths and the five
imported page views: the paths are pairwise distinct, the elements are
pairwise distinct, the elements are the five views, and each view is rendered
at exactly one path of the table. -/
theorem C8_routing_table_bijection :
    routingTable.length = 5
    ∧ (routingTable.map Route.path).Nodup
    ∧ (routingTable.map Route.element).Nodup
    ∧ (routingTable.map Route.element).Perm
        [Component.PensionHome, Component.PensionMyPension, Component.PensionAbout,
          Component.PensionRegister, Component.PensionContribute]
    ∧ (routingTable.filter (fun r =>
          decide (componentsList (render r.path viewSlot) = [Component.PensionHome]))).map
        Route.path = ["/"]
    ∧ (routingTable.filter (fun r =>
          decide (componentsList (render r.path viewSlot) = [Component.PensionAbout]))).map
        Route.path = ["/about"]
    ∧ (routingTable.filter (fun r =>
          decide (componentsList (render r.path viewSlot) = [Component.PensionMyPension]))).map
        Route.path = ["/mypension"]
    ∧ (routingTable.filter (fun r =>
          decide (componentsList (render r.path viewSlot) = [Component.PensionContribute]))).map
        Route.path = ["/contribute"]
    ∧ (routingTable.filter (fun r =>
          decide (componentsList (render r.path viewSlot) = [Component.PensionRegister]))).map
        Route.path = ["/register"] := by
  refine ⟨rfl, by decide, by decide, by decide, by decide, by decide, by decide, by decide,
    by decide⟩

end PensionFrontend
